import Mathlib

/-!
Verification of the mount-URI resolver of the marimo-operator kubectl
plugin (`src/plugin/kubectl_marimo/resources.py`).

Strings are embedded as `List Char` (one Lean `Char` per Python `str`
character).  `parse_mount_uri`, `is_local_mount` and `filter_mounts`
below are direct translations of the Python functions of the same
names; exceptions (`ValueError`) become `Option.none`.
-/

namespace MarimoMounts

/-- Word character of the regex class `\w`, restricted to ASCII
(`[A-Za-z0-9_]`).  Python's `re` also admits further Unicode word
characters; every input settled in this development is ASCII, where the
two classes coincide. -/
def isWordChar (c : Char) : Bool :=
  c.isAlphanum || c = '_'

/-- Split a character list at the first occurrence of the substring
`://`, returning the text before and after it.  Models the shape
`^(…)://(…)` of the scheme regex in `parse_mount_uri`. -/
def splitSchemeSep : List Char → Option (List Char × List Char)
  | [] => none
  | c :: rest =>
    if c = ':' ∧ rest.take 2 = ['/', '/'] then some ([], rest.drop 2)
    else (splitSchemeSep rest).map fun p => (c :: p.1, p.2)

/-- Effect of the trailing `(.*)$` of `re.match` (no MULTILINE, no
DOTALL) on the text after `://`: `.` cannot cross a newline and `$`
matches only at the end of the string or just before one final newline,
so the group is the text itself, with at most a single trailing newline
dropped; any interior newline makes the whole match fail. -/
def dollarTrim (l : List Char) : Option (List Char) :=
  if '\n' ∈ l then
    if l.getLast? = some '\n' ∧ '\n' ∉ l.dropLast then some l.dropLast else none
  else some l

/-- Model of `re.match(r"^(\w+)://(.*)$", uri)` from `parse_mount_uri`:
result is `(group 1, group 2)`, i.e. the scheme (a non-empty run of word
characters forming the whole text before the first `://`) and the
remainder. -/
def matchSchemeRe (uri : List Char) : Option (List Char × List Char) :=
  match splitSchemeSep uri with
  | none => none
  | some (s, rest) =>
    if s ≠ [] ∧ s.all isWordChar then
      (dollarTrim rest).map fun r => (s, r)
    else none

/-- Model of Python `s.rsplit(":", 1)` restricted to the interesting
outcome: `some (a, b)` when `s = a ++ ":" ++ b` with the split at the
last colon (so `b` is colon-free), `none` when `s` has no colon (Python
returns the one-element list `[s]` there). -/
def rsplitColon : List Char → Option (List Char × List Char)
  | [] => none
  | c :: rest =>
    match rsplitColon rest with
    | some (a, b) => some (c :: a, b)
    | none => if c = ':' then some ([], rest) else none

/-- Model of `remainder.find(":/")` plus the two slices taken from the
found index in `parse_mount_uri`: `some (before, fromSlash)` where
`before` is the text preceding the first `:/` and `fromSlash` is the
text from its slash onward (the slash included); `none` when `:/` does
not occur. -/
def splitFirstColonSlash : List Char → Option (List Char × List Char)
  | [] => none
  | c :: rest =>
    if c = ':' ∧ rest.head? = some '/' then some ([], rest)
    else (splitFirstColonSlash rest).map fun p => (c :: p.1, p.2)

/-- Result quadruple of `parse_mount_uri`:
`(scheme, source_path, user_host, mount_point)`. -/
structure ParsedMount where
  scheme : List Char
  source : List Char
  user_host : Option (List Char)
  mount_point : Option (List Char)
deriving DecidableEq

/-- Translation of `parse_mount_uri` (resources.py, lines 9–72).
`none` models the two `raise ValueError` sites: the scheme regex not
matching, and a remote-form remainder without `:/`. -/
def parse_mount_uri (uri : List Char) : Option ParsedMount :=
  match matchSchemeRe uri with
  | none => none
  | some (scheme, remainder) =>
    if scheme = "rsync".toList ∧ '@' ∉ remainder then
      match rsplitColon remainder with
      | some (src, mount) =>
        if mount ≠ [] then
          if mount.head? = some '/' then
            some ⟨scheme, src, none, some mount⟩
          else
            some ⟨scheme, src, none, some ("/home/marimo/notebooks/".toList ++ mount)⟩
        else
          some ⟨scheme, remainder, none, none⟩
      | none => some ⟨scheme, remainder, none, none⟩
    else
      match splitFirstColonSlash remainder with
      | none => none
      | some (user_host, path_part) =>
        match rsplitColon path_part with
        | some (a, b) =>
          if b.head? = some '/' then some ⟨scheme, a, some user_host, some b⟩
          else some ⟨scheme, path_part, some user_host, none⟩
        | none => some ⟨scheme, path_part, some user_host, none⟩

/-- Translation of `is_local_mount` (resources.py, lines 75–82):
`parse_mount_uri` then `user_host is None`; a parse failure
propagates. -/
def is_local_mount (uri : List Char) : Option Bool :=
  (parse_mount_uri uri).map fun pm => pm.user_host.isNone

/-- Python's `x or default` applied to the optional `mount_point` in
`filter_mounts`: `None` and the empty string are falsy, every other
string is returned as is. -/
def pyOr (mp : Option (List Char)) (d : List Char) : List Char :=
  match mp with
  | some s => if s = [] then d else s
  | none => d

/-- Default mount point `f"/home/marimo/notebooks/mounts/local-{i}"`
built in `filter_mounts` for the list index `i`. -/
def defaultMountPoint (i : Nat) : List Char :=
  "/home/marimo/notebooks/mounts/local-".toList ++ (toString i).toList

/-- Loop of `filter_mounts` (resources.py, lines 85–113), with the
`enumerate` counter `i` made explicit.  Returns
`(remote_mounts, local_mounts)` for the remaining input; consing an
element in input order is the translation of the Python `append`s. -/
def filterMountsGo (i : Nat) : List (List Char) → List (List Char) × List (List Char × List Char × List Char)
  | [] => ([], [])
  | uri :: rest =>
    let acc := filterMountsGo (i + 1) rest
    match parse_mount_uri uri with
    | some pm =>
      match pm.user_host with
      | none => (acc.1, (pm.source, pyOr pm.mount_point (defaultMountPoint i), pm.scheme) :: acc.2)
      | some _ => (uri :: acc.1, acc.2)
    | none => (uri :: acc.1, acc.2)

/-- Translation of `filter_mounts`: partition a list of mount
descriptors into `(remote_mounts, local_mounts)`. -/
def filter_mounts (mounts : List (List Char)) : List (List Char) × List (List Char × List Char × List Char) :=
  filterMountsGo 0 mounts

/-- Classifier for the remote output of `filter_mounts`: a descriptor
is kept in `remote_mounts` exactly when parsing fails (the `except
ValueError` passthrough) or yields a `user_host`. -/
def remoteKeep (uri : List Char) : Bool :=
  match parse_mount_uri uri with
  | some pm => pm.user_host.isSome
  | none => true

/-- Entry contributed to the local output of `filter_mounts` by the
descriptor at list index `i`: `some (source, mount_point-or-default,
scheme)` when it parses with no `user_host`, `none` otherwise. -/
def localEntry (i : Nat) (uri : List Char) : Option (List Char × List Char × List Char) :=
  match parse_mount_uri uri with
  | some pm =>
    match pm.user_host with
    | none => some (pm.source, pyOr pm.mount_point (defaultMountPoint i), pm.scheme)
    | some _ => none
  | none => none

/-- Reconstruction: a successful `splitSchemeSep` exhibits the input as
text, separator `://`, text. -/
theorem splitSchemeSep_eq : ∀ l a b : List Char, splitSchemeSep l = some (a, b) → l = a ++ ':' :: '/' :: '/' :: b := by
  intro l
  induction l with
  | nil => intro a b h; simp [splitSchemeSep] at h
  | cons c rest ih =>
    intro a b h
    rw [splitSchemeSep] at h
    by_cases hc : c = ':' ∧ rest.take 2 = ['/', '/']
    · rw [if_pos hc] at h
      simp only [Option.some.injEq, Prod.mk.injEq] at h
      obtain ⟨rfl, rfl⟩ := h
      obtain ⟨rfl, h2⟩ := hc
      conv_lhs => rw [← List.take_append_drop 2 rest, h2]
      rfl
    · rw [if_neg hc] at h
      rw [Option.map_eq_some'] at h
      obtain ⟨⟨a', b'⟩, hsp, hab⟩ := h
      simp only [Prod.mk.injEq] at hab
      obtain ⟨rfl, rfl⟩ := hab
      simp [ih _ _ hsp]

/-- Reconstruction for `splitFirstColonSlash`: the input is text, a
colon, then the part from the slash onward. -/
theorem splitFirstColonSlash_eq : ∀ l a b : List Char, splitFirstColonSlash l = some (a, b) → l = a ++ ':' :: b ∧ b.head? = some '/' := by
  intro l
  induction l with
  | nil => intro a b h; simp [splitFirstColonSlash] at h
  | cons c rest ih =>
    intro a b h
    rw [splitFirstColonSlash] at h
    by_cases hc : c = ':' ∧ rest.head? = some '/'
    · rw [if_pos hc] at h
      simp only [Option.some.injEq, Prod.mk.injEq] at h
      obtain ⟨rfl, rfl⟩ := h
      obtain ⟨rfl, h2⟩ := hc
      exact ⟨rfl, h2⟩
    · rw [if_neg hc] at h
      rw [Option.map_eq_some'] at h
      obtain ⟨⟨a', b'⟩, hsp, hab⟩ := h
      simp only [Prod.mk.injEq] at hab
      obtain ⟨rfl, rfl⟩ := hab
      obtain ⟨h1, h2⟩ := ih _ _ hsp
      exact ⟨by simp [h1], h2⟩

/-- When the whole list has no colon, `rsplitColon` finds nothing. -/
theorem rsplitColon_eq_none : ∀ l : List Char, rsplitColon l = none → ':' ∉ l := by
  intro l
  induction l with
  | nil => intro _ h; simp at h
  | cons c rest ih =>
    intro h hmem
    rw [rsplitColon] at h
    cases hr : rsplitColon rest with
    | some p => rw [hr] at h; simp at h
    | none =>
      rw [hr] at h
      rcases List.mem_cons.mp hmem with rfl | hm
      · simp at h
      · exact ih hr hm

/-- Reconstruction for `rsplitColon`: the split is at a colon and the
second part is colon-free (so the split colon is the last one). -/
theorem rsplitColon_eq : ∀ l a b : List Char, rsplitColon l = some (a, b) → l = a ++ ':' :: b ∧ ':' ∉ b := by
  intro l
  induction l with
  | nil => intro a b h; simp [rsplitColon] at h
  | cons c rest ih =>
    intro a b h
    rw [rsplitColon] at h
    cases hr : rsplitColon rest with
    | some p =>
      obtain ⟨a', b'⟩ := p
      rw [hr] at h
      simp only [Option.some.injEq, Prod.mk.injEq] at h
      obtain ⟨rfl, rfl⟩ := h
      obtain ⟨h1, h2⟩ := ih _ _ hr
      exact ⟨by simp [h1], h2⟩
    | none =>
      rw [hr] at h
      by_cases hc : c = ':'
      · rw [if_pos hc] at h
        simp only [Option.some.injEq, Prod.mk.injEq] at h
        obtain ⟨rfl, rfl⟩ := h
        subst hc
        exact ⟨rfl, rsplitColon_eq_none _ hr⟩
      · rw [if_neg hc] at h
        simp at h

/-- A successful `dollarTrim` returns either the input itself or the
input minus one final newline. -/
theorem dollarTrim_cases (l r : List Char) (h : dollarTrim l = some r) : r = l ∨ l = r ++ ['\n'] := by
  unfold dollarTrim at h
  by_cases hn : '\n' ∈ l
  · rw [if_pos hn] at h
    by_cases hl : l.getLast? = some '\n' ∧ '\n' ∉ l.dropLast
    · rw [if_pos hl] at h
      injection h with h'
      subst h'
      right
      obtain ⟨h1, _⟩ := hl
      have hne : l ≠ [] := by
        intro he
        rw [he] at h1
        simp at h1
      have h2 := List.getLast?_eq_getLast_of_ne_nil hne
      rw [h2] at h1
      injection h1 with h1
      rw [← h1]
      exact (List.dropLast_append_getLast hne).symm
    · rw [if_neg hl] at h
      simp at h
  · rw [if_neg hn] at h
    injection h with h'
    exact Or.inl h'.symm

/-- Characters of the trimmed remainder come from the untrimmed one. -/
theorem dollarTrim_mem_of (l r : List Char) (h : dollarTrim l = some r) {c : Char} (hc : c ∈ r) : c ∈ l := by
  rcases dollarTrim_cases l r h with rfl | rfl
  · exact hc
  · exact List.mem_append_left _ hc

/-- Every non-newline character of the input survives `dollarTrim`. -/
theorem dollarTrim_mem_to (l r : List Char) (h : dollarTrim l = some r) {c : Char} (hne : c ≠ '\n') (hc : c ∈ l) : c ∈ r := by
  rcases dollarTrim_cases l r h with rfl | heq
  · exact hc
  · subst heq
    rcases List.mem_append.mp hc with h1 | h1
    · exact h1
    · simp at h1
      exact absurd h1 hne

/-- Decomposition of a successful scheme-regex match into its three
ingredients: the split at the first `://`, the `$`-trimming of the
remainder, and the word-character condition on the scheme. -/
theorem matchSchemeRe_elim (uri s r : List Char) (h : matchSchemeRe uri = some (s, r)) :
    ∃ rest, splitSchemeSep uri = some (s, rest) ∧ dollarTrim rest = some r ∧ s ≠ [] ∧ s.all isWordChar = true := by
  unfold matchSchemeRe at h
  split at h
  · simp at h
  · rename_i s' rest heq
    split at h
    · rename_i hw
      rw [Option.map_eq_some'] at h
      obtain ⟨r', hd, hpr⟩ := h
      simp only [Prod.mk.injEq] at hpr
      obtain ⟨rfl, rfl⟩ := hpr
      exact ⟨rest, heq, hd, hw.1, hw.2⟩
    · simp at h

/-- An `@` in a descriptor that matches the scheme regex lies in the
matched remainder (the scheme is word characters only, and `@` is not
dropped by the `$`-trimming). -/
theorem at_mem_remainder (uri s r : List Char) (h : matchSchemeRe uri = some (s, r)) (ha : '@' ∈ uri) : '@' ∈ r := by
  obtain ⟨rest, hsp, hdt, _, hw⟩ := matchSchemeRe_elim uri s r h
  rw [splitSchemeSep_eq uri s rest hsp] at ha
  rcases List.mem_append.mp ha with h1 | h2
  · have := List.all_eq_true.mp hw _ h1
    exact absurd this (by decide)
  · simp only [List.mem_cons] at h2
    rcases h2 with h3 | h3 | h3 | h3
    · exact absurd h3 (by decide)
    · exact absurd h3 (by decide)
    · exact absurd h3 (by decide)
    · exact dollarTrim_mem_to rest r hdt (by decide) h3

/-- Conversely, an `@` in the matched remainder is an `@` in the
descriptor. -/
theorem at_mem_uri (uri s r : List Char) (h : matchSchemeRe uri = some (s, r)) (ha : '@' ∈ r) : '@' ∈ uri := by
  obtain ⟨rest, hsp, hdt, _, _⟩ := matchSchemeRe_elim uri s r h
  rw [splitSchemeSep_eq uri s rest hsp]
  refine List.mem_append_right _ ?_
  simp only [List.mem_cons]
  exact Or.inr (Or.inr (Or.inr (dollarTrim_mem_of rest r hdt ha)))

/-- The local branch of `parse_mount_uri` always succeeds and never
sets `user_host`: for a regex-matching descriptor whose scheme is
`rsync` and whose remainder has no `@`, every sub-case returns a
result with `user_host = none`. -/
theorem parse_local_user_host (uri s r : List Char) (hm : matchSchemeRe uri = some (s, r))
    (hs : s = "rsync".toList) (ha : '@' ∉ r) :
    ∃ pm, parse_mount_uri uri = some pm ∧ pm.user_host = none := by
  subst hs
  cases hr : rsplitColon r with
  | none =>
    refine ⟨⟨"rsync".toList, r, none, none⟩, ?_, rfl⟩
    simp [parse_mount_uri, hm, hr, ha]
  | some p =>
    obtain ⟨a, b⟩ := p
    by_cases hb : b = []
    · refine ⟨⟨"rsync".toList, r, none, none⟩, ?_, rfl⟩
      simp [parse_mount_uri, hm, hr, ha, hb]
    · by_cases hh : b.head? = some '/'
      · refine ⟨⟨"rsync".toList, a, none, some b⟩, ?_, rfl⟩
        simp [parse_mount_uri, hm, hr, ha, hb, hh]
      · refine ⟨⟨"rsync".toList, a, none, some ("/home/marimo/notebooks/".toList ++ b)⟩, ?_, rfl⟩
        simp [parse_mount_uri, hm, hr, ha, hb, hh]

/-- The remote branch of `parse_mount_uri` always sets `user_host`:
whenever the local-branch condition fails and parsing still succeeds,
the result's `user_host` is `some`. -/
theorem parse_remote_user_host (uri s r : List Char) (pm : ParsedMount)
    (hm : matchSchemeRe uri = some (s, r)) (hneg : ¬(s = "rsync".toList ∧ '@' ∉ r))
    (hp : parse_mount_uri uri = some pm) : pm.user_host.isSome = true := by
  simp only [parse_mount_uri, hm] at hp
  rw [if_neg hneg] at hp
  split at hp
  · simp at hp
  · split at hp
    · split at hp
      · injection hp with hp
        subst hp
        rfl
      · injection hp with hp
        subst hp
        rfl
    · injection hp with hp
      subst hp
      rfl

/-- Every `mount_point` produced by `parse_mount_uri` starts with `/`:
the local branch either keeps a candidate that starts with `/` or
prefixes the fixed base directory, and the remote branch demands the
leading `/` outright. -/
theorem parse_mount_point_head (uri : List Char) (pm : ParsedMount) (m : List Char)
    (hp : parse_mount_uri uri = some pm) (hm : pm.mount_point = some m) : m.head? = some '/' := by
  unfold parse_mount_uri at hp
  split at hp
  · simp at hp
  · split at hp
    · split at hp
      · split at hp
        · split at hp
          · rename_i hh
            injection hp with hp
            subst hp
            injection hm with hm
            subst hm
            exact hh
          · injection hp with hp
            subst hp
            injection hm with hm
            subst hm
            rfl
        · injection hp with hp
          subst hp
          simp at hm
      · injection hp with hp
        subst hp
        simp at hm
    · split at hp
      · simp at hp
      · split at hp
        · split at hp
          · rename_i hh
            injection hp with hp
            subst hp
            injection hm with hm
            subst hm
            exact hh
          · injection hp with hp
            subst hp
            simp at hm
        · injection hp with hp
          subst hp
          simp at hm

/-- Each default mount point starts with a slash. -/
theorem defaultMountPoint_head (i : Nat) : (defaultMountPoint i).head? = some '/' := rfl

/-- Closed form of the `filter_mounts` loop: the remote output is the
order-preserving filter of the raw input by `remoteKeep`, and the
local output collects `localEntry` over the input paired with its
`enumerate` indices. -/
theorem filterMountsGo_eq : ∀ (mounts : List (List Char)) (i : Nat),
    filterMountsGo i mounts =
      (mounts.filter remoteKeep, (mounts.enumFrom i).filterMap fun p => localEntry p.1 p.2) := by
  intro mounts
  induction mounts with
  | nil => intro i; rfl
  | cons uri rest ih =>
    intro i
    simp only [filterMountsGo, ih (i + 1)]
    cases hp : parse_mount_uri uri with
    | none =>
      simp [remoteKeep, localEntry, hp, List.filter_cons, List.enumFrom, List.filterMap_cons]
    | some pm =>
      cases hu : pm.user_host with
      | none =>
        simp [remoteKeep, localEntry, hp, hu, List.filter_cons, List.enumFrom, List.filterMap_cons]
      | some h =>
        simp [remoteKeep, localEntry, hp, hu, List.filter_cons, List.enumFrom, List.filterMap_cons]

/-- Closed form of `filter_mounts` itself. -/
theorem filter_mounts_eq (mounts : List (List Char)) :
    filter_mounts mounts =
      (mounts.filter remoteKeep, mounts.enum.filterMap fun p => localEntry p.1 p.2) := by
  rw [filter_mounts, filterMountsGo_eq mounts 0]
  rfl

/-- Splitting the loop of `filter_mounts` around a list append: the
second part is processed with the `enumerate` counter advanced by the
length of the first. -/
theorem filterMountsGo_append (l₁ l₂ : List (List Char)) (i : Nat) :
    filterMountsGo i (l₁ ++ l₂) =
      ((filterMountsGo i l₁).1 ++ (filterMountsGo (i + l₁.length) l₂).1,
       (filterMountsGo i l₁).2 ++ (filterMountsGo (i + l₁.length) l₂).2) := by
  simp only [filterMountsGo_eq, List.filter_append, List.enumFrom_append, List.filterMap_append]

/-- Step of the `filter_mounts` loop on a descriptor that parses with
no `user_host`: it contributes one local entry built at the current
index. -/
theorem filterMountsGo_cons_local (uri : List Char) (rest : List (List Char)) (i : Nat)
    (pm : ParsedMount) (hp : parse_mount_uri uri = some pm) (hu : pm.user_host = none) :
    filterMountsGo i (uri :: rest) =
      ((filterMountsGo (i + 1) rest).1,
       (pm.source, pyOr pm.mount_point (defaultMountPoint i), pm.scheme) :: (filterMountsGo (i + 1) rest).2) := by
  simp [filterMountsGo, hp, hu]

/-- The remote branch of `parse_mount_uri` succeeds whenever the
remainder contains `:/`, with the text before the first `:/` as
`user_host`. -/
theorem parse_remote_total (uri s r u p : List Char) (hm : matchSchemeRe uri = some (s, r))
    (hneg : ¬(s = "rsync".toList ∧ '@' ∉ r)) (hsp : splitFirstColonSlash r = some (u, p)) :
    ∃ pm, parse_mount_uri uri = some pm ∧ pm.user_host = some u := by
  cases hr : rsplitColon p with
  | none =>
    refine ⟨⟨s, p, some u, none⟩, ?_, rfl⟩
    simp only [parse_mount_uri, hm]
    rw [if_neg hneg]
    simp [hsp, hr]
  | some q =>
    obtain ⟨a, b⟩ := q
    by_cases hh : b.head? = some '/'
    · refine ⟨⟨s, a, some u, some b⟩, ?_, rfl⟩
      simp only [parse_mount_uri, hm]
      rw [if_neg hneg]
      simp [hsp, hr, hh]
    · refine ⟨⟨s, p, some u, none⟩, ?_, rfl⟩
      simp only [parse_mount_uri, hm]
      rw [if_neg hneg]
      simp [hsp, hr, hh]

/-- A successful parse presupposes a successful scheme-regex match. -/
theorem parse_some_matchSchemeRe (uri : List Char) (pm : ParsedMount)
    (hp : parse_mount_uri uri = some pm) : ∃ s r, matchSchemeRe uri = some (s, r) := by
  cases hm : matchSchemeRe uri with
  | none =>
    simp only [parse_mount_uri, hm] at hp
    exact Option.noConfusion hp
  | some sr => exact ⟨sr.1, sr.2, rfl⟩

/-- Claim C1, counterexample: on the input remote, local, remote, local (the
locals without explicit mount points), `filter_mounts` assigns the
defaults `local-1` and `local-3` — the absolute list positions — and
not the local-only indices `local-0` and `local-1` the claim
predicts. -/
theorem C1_counterexample :
    (filter_mounts ["sshfs://u@h:/a".toList, "rsync:///p".toList,
        "sshfs://u@h:/b".toList, "rsync:///q".toList]).2 =
      [("/p".toList, "/home/marimo/notebooks/mounts/local-1".toList, "rsync".toList),
       ("/q".toList, "/home/marimo/notebooks/mounts/local-3".toList, "rsync".toList)] ∧
    (filter_mounts ["sshfs://u@h:/a".toList, "rsync:///p".toList,
        "sshfs://u@h:/b".toList, "rsync:///q".toList]).2 ≠
      [("/p".toList, "/home/marimo/notebooks/mounts/local-0".toList, "rsync".toList),
       ("/q".toList, "/home/marimo/notebooks/mounts/local-1".toList, "rsync".toList)] := by
  constructor
  · decide
  · decide

/-- Claim C1, amended: each local mount lacking an explicit mount point gets
the default `/home/marimo/notebooks/mounts/local-n` where `n` is its
absolute zero-based position in the input list (the loop's `enumerate`
index), not a local-only counter; on remote, local, remote, local the
two locals get `local-1` and `local-3`. -/
theorem C1_default_index_absolute :
    (∀ (pre post : List (List Char)) (uri : List Char) (pm : ParsedMount),
      parse_mount_uri uri = some pm → pm.user_host = none → pm.mount_point = none →
      (filter_mounts (pre ++ uri :: post)).2 =
        (filterMountsGo 0 pre).2 ++
          (pm.source, defaultMountPoint pre.length, pm.scheme) ::
            (filterMountsGo (pre.length + 1) post).2) ∧
    (filter_mounts ["sshfs://u@h:/a".toList, "rsync:///p".toList,
        "sshfs://u@h:/b".toList, "rsync:///q".toList]).2.map (fun e => e.2.1) =
      [defaultMountPoint 1, defaultMountPoint 3] := by
  constructor
  · intro pre post uri pm hp hu hmp
    simp only [filter_mounts, filterMountsGo_append]
    rw [filterMountsGo_cons_local uri post (0 + pre.length) pm hp hu]
    simp [hmp, pyOr]
  · decide

/-- Claim C1, witness for the amended theorem at a one-remote prefix. -/
theorem C1_default_index_absolute_witness :
    (filter_mounts (["sshfs://u@h:/a".toList] ++ "rsync:///p".toList :: [])).2 =
      (filterMountsGo 0 ["sshfs://u@h:/a".toList]).2 ++
        ("/p".toList, defaultMountPoint (["sshfs://u@h:/a".toList] : List (List Char)).length,
          "rsync".toList) ::
          (filterMountsGo ((["sshfs://u@h:/a".toList] : List (List Char)).length + 1) []).2 :=
  C1_default_index_absolute.1 ["sshfs://u@h:/a".toList] [] "rsync:///p".toList
    ⟨"rsync".toList, "/p".toList, none, none⟩ (by decide) rfl rfl

/-- Claim C2, counterexample: this descriptor has a textbook `rsync://`
separator (as `splitSchemeSep` shows), is in the local form, and even
contains `:/`, yet `parse_mount_uri` fails, because the scheme regex
`^(\w+)://(.*)$` refuses the interior newline of the remainder. -/
theorem C2_counterexample :
    splitSchemeSep "rsync://a\nb:/m".toList = some ("rsync".toList, "a\nb:/m".toList) ∧
    parse_mount_uri "rsync://a\nb:/m".toList = none := by
  constructor
  · decide
  · decide

/-- Claim C2, amended: `parse_mount_uri` fails exactly when the scheme regex
`^(\w+)://(.*)$` does not match — there is no `://` whose whole prefix
is a non-empty run of word characters, or the text after `://` has a
newline anywhere but as a single final character — or, in the remote
form (scheme other than `rsync`, or an `@` in the remainder), the
remainder lacks a `:/` substring; on every other input it succeeds. -/
theorem C2_parse_failure_iff :
    ∀ uri : List Char,
      (∃ pm, parse_mount_uri uri = some pm) ↔
        ∃ s r, matchSchemeRe uri = some (s, r) ∧
          ((s = "rsync".toList ∧ '@' ∉ r) ∨ ∃ u p, splitFirstColonSlash r = some (u, p)) := by
  intro uri
  constructor
  · rintro ⟨pm, hp⟩
    obtain ⟨s, r, hm⟩ := parse_some_matchSchemeRe uri pm hp
    by_cases hl : s = "rsync".toList ∧ '@' ∉ r
    · exact ⟨s, r, hm, Or.inl hl⟩
    · simp only [parse_mount_uri, hm] at hp
      rw [if_neg hl] at hp
      cases hs : splitFirstColonSlash r with
      | none =>
        rw [hs] at hp
        simp at hp
      | some q => exact ⟨s, r, hm, Or.inr ⟨q.1, q.2, by rw [hs]⟩⟩
  · rintro ⟨s, r, hm, hl | ⟨u, p, hsp⟩⟩
    · obtain ⟨pm, hp, _⟩ := parse_local_user_host uri s r hm hl.1 hl.2
      exact ⟨pm, hp⟩
    · by_cases hl : s = "rsync".toList ∧ '@' ∉ r
      · obtain ⟨pm, hp, _⟩ := parse_local_user_host uri s r hm hl.1 hl.2
        exact ⟨pm, hp⟩
      · obtain ⟨pm, hp, _⟩ := parse_remote_total uri s r u p hm hl hsp
        exact ⟨pm, hp⟩

/-- Claim C2, witness: a remote descriptor accepted through the
characterization. -/
theorem C2_parse_failure_iff_witness :
    (parse_mount_uri "sshfs://user@host:/data".toList).isSome = true := by
  obtain ⟨pm, hp⟩ := (C2_parse_failure_iff "sshfs://user@host:/data".toList).mpr
    ⟨"sshfs".toList, "user@host:/data".toList, by decide,
      Or.inr ⟨"user@host".toList, "/data".toList, by decide⟩⟩
  rw [hp]
  rfl

/-- Claim C3: `is_local_mount` returns true on every regex-valid
rsync-scheme descriptor without `@`; whenever it returns at all on a
descriptor containing `@`, or on a descriptor of another scheme, it
returns false. -/
theorem C3_is_local_classification :
    (∀ uri s r : List Char, matchSchemeRe uri = some (s, r) → s = "rsync".toList →
      '@' ∉ uri → is_local_mount uri = some true) ∧
    (∀ (uri : List Char) (b : Bool), '@' ∈ uri → is_local_mount uri = some b → b = false) ∧
    (∀ (uri s r : List Char) (b : Bool), matchSchemeRe uri = some (s, r) →
      s ≠ "rsync".toList → is_local_mount uri = some b → b = false) := by
  refine ⟨?_, ?_, ?_⟩
  · intro uri s r hm hs ha
    have har : '@' ∉ r := fun hr => ha (at_mem_uri uri s r hm hr)
    obtain ⟨pm, hp, hu⟩ := parse_local_user_host uri s r hm hs har
    simp [is_local_mount, hp, hu]
  · intro uri b ha hl
    rw [is_local_mount, Option.map_eq_some'] at hl
    obtain ⟨pm, hp, hb⟩ := hl
    obtain ⟨s, r, hm⟩ := parse_some_matchSchemeRe uri pm hp
    have har : '@' ∈ r := at_mem_remainder uri s r hm ha
    have hsome := parse_remote_user_host uri s r pm hm (fun h => h.2 har) hp
    cases hu : pm.user_host with
    | none =>
      rw [hu] at hsome
      simp at hsome
    | some x =>
      rw [hu] at hb
      simpa using hb.symm
  · intro uri s r b hm hs hl
    rw [is_local_mount, Option.map_eq_some'] at hl
    obtain ⟨pm, hp, hb⟩ := hl
    have hsome := parse_remote_user_host uri s r pm hm (fun h => hs h.1) hp
    cases hu : pm.user_host with
    | none =>
      rw [hu] at hsome
      simp at hsome
    | some x =>
      rw [hu] at hb
      simpa using hb.symm

/-- Claim C3, witness: each conjunct exercised at a concrete descriptor. -/
theorem C3_is_local_classification_witness :
    is_local_mount "rsync://examples".toList = some true ∧ false = false ∧ false = false :=
  ⟨C3_is_local_classification.1 "rsync://examples".toList "rsync".toList "examples".toList
      (by decide) rfl (by decide),
   C3_is_local_classification.2.1 "rsync://user@host:/d".toList false (by decide) (by decide),
   C3_is_local_classification.2.2 "sshfs://user@host:/d".toList "sshfs".toList
      "user@host:/d".toList false (by decide) (by decide) (by decide)⟩

/-- Claim C4: `filter_mounts` is total, every descriptor on which parsing
fails is passed through into the remote output, and
`filter_mounts(["invalid"])` yields `(["invalid"], [])`. -/
theorem C4_partition_never_raises :
    (∀ (mounts : List (List Char)) (uri : List Char),
      uri ∈ mounts → parse_mount_uri uri = none → uri ∈ (filter_mounts mounts).1) ∧
    filter_mounts ["invalid".toList] = (["invalid".toList], []) := by
  refine ⟨?_, by decide⟩
  intro mounts uri hmem hp
  rw [filter_mounts_eq]
  exact List.mem_filter.mpr ⟨hmem, by simp [remoteKeep, hp]⟩

/-- Claim C4, witness: the unparsable descriptor lands in the remote
output. -/
theorem C4_partition_never_raises_witness :
    "invalid".toList ∈ (filter_mounts ["invalid".toList]).1 :=
  C4_partition_never_raises.1 ["invalid".toList] "invalid".toList (by decide) (by decide)

/-- Claim C5: in the remote form, the text before the first `:/` of the
remainder is `user_host`, the part from the slash on is split at its
last colon, and the second part is the mount point exactly when it
starts with `/` (so in particular it is non-empty); the two concrete
examples of the claim evaluate as stated. -/
theorem C5_remote_parse_shape :
    (∀ uri s r u p : List Char,
      matchSchemeRe uri = some (s, r) → ¬(s = "rsync".toList ∧ '@' ∉ r) →
      splitFirstColonSlash r = some (u, p) →
      parse_mount_uri uri =
        some (match rsplitColon p with
              | some (a, b) =>
                if b.head? = some '/' then ⟨s, a, some u, some b⟩
                else ⟨s, p, some u, none⟩
              | none => ⟨s, p, some u, none⟩)) ∧
    parse_mount_uri "rsync://user@host:/data:/mnt".toList =
      some ⟨"rsync".toList, "/data".toList, some "user@host".toList, some "/mnt".toList⟩ ∧
    parse_mount_uri "rsync://user@host:/data".toList =
      some ⟨"rsync".toList, "/data".toList, some "user@host".toList, none⟩ := by
  refine ⟨?_, by decide, by decide⟩
  intro uri s r u p hm hneg hsp
  cases hr : rsplitColon p with
  | none =>
    simp only [parse_mount_uri, hm]
    rw [if_neg hneg]
    simp [hsp, hr]
  | some q =>
    obtain ⟨a, b⟩ := q
    by_cases hh : b.head? = some '/'
    · simp only [parse_mount_uri, hm]
      rw [if_neg hneg]
      simp [hsp, hr, hh]
    · simp only [parse_mount_uri, hm]
      rw [if_neg hneg]
      simp [hsp, hr, hh]

/-- Claim C5, witness: the general remote shape applied to a further
concrete descriptor. -/
theorem C5_remote_parse_shape_witness :
    parse_mount_uri "sshfs://u@h:/a:/b".toList =
      some (match rsplitColon "/a:/b".toList with
            | some (a, b) =>
              if b.head? = some '/' then
                (⟨"sshfs".toList, a, some "u@h".toList, some b⟩ : ParsedMount)
              else ⟨"sshfs".toList, "/a:/b".toList, some "u@h".toList, none⟩
            | none => ⟨"sshfs".toList, "/a:/b".toList, some "u@h".toList, none⟩) :=
  C5_remote_parse_shape.1 "sshfs://u@h:/a:/b".toList "sshfs".toList "u@h:/a:/b".toList
    "u@h".toList "/a:/b".toList (by decide) (by decide) (by decide)

/-- Claim C6: a local-form descriptor whose non-empty mount point candidate
does not start with `/` has it rewritten under the fixed base
directory, and `parse("rsync://examples:data")` evaluates as the claim
states. -/
theorem C6_relative_mount_rewrite :
    (∀ uri s r a b : List Char,
      matchSchemeRe uri = some (s, r) → s = "rsync".toList → '@' ∉ r →
      rsplitColon r = some (a, b) → b ≠ [] → b.head? ≠ some '/' →
      parse_mount_uri uri =
        some ⟨s, a, none, some ("/home/marimo/notebooks/".toList ++ b)⟩) ∧
    parse_mount_uri "rsync://examples:data".toList =
      some ⟨"rsync".toList, "examples".toList, none, some "/home/marimo/notebooks/data".toList⟩ := by
  refine ⟨?_, by decide⟩
  intro uri s r a b hm hs ha hr hb hh
  subst hs
  simp [parse_mount_uri, hm, ha, hr, hb, hh]

/-- Claim C6, witness: the general rewrite applied to a small concrete
descriptor. -/
theorem C6_relative_mount_rewrite_witness :
    parse_mount_uri "rsync://a:b".toList =
      some ⟨"rsync".toList, "a".toList, none,
        some ("/home/marimo/notebooks/".toList ++ "b".toList)⟩ :=
  C6_relative_mount_rewrite.1 "rsync://a:b".toList "rsync".toList "a:b".toList
    "a".toList "b".toList (by decide) rfl (by decide) (by decide) (by decide) (by decide)

/-- Claim C7: the triple-slash descriptors parse as the local absolute-path
form, without and with an explicit mount point. -/
theorem C7_triple_slash_local :
    parse_mount_uri "rsync:///abs/path".toList =
      some ⟨"rsync".toList, "/abs/path".toList, none, none⟩ ∧
    parse_mount_uri "rsync:///abs/path:/mnt".toList =
      some ⟨"rsync".toList, "/abs/path".toList, none, some "/mnt".toList⟩ := by
  constructor
  · decide
  · decide

/-- Claim C8: the remote output of `filter_mounts` is the order-preserving
filter of the raw input strings by the remote classifier, and the
local output is the order-preserving collection of the local entries
of the index-annotated input — so both outputs keep the input's
relative order, and remote entries are passed through verbatim. -/
theorem C8_order_and_passthrough (mounts : List (List Char)) :
    filter_mounts mounts =
      (mounts.filter remoteKeep, mounts.enum.filterMap fun p => localEntry p.1 p.2) :=
  filter_mounts_eq mounts

/-- Claim C9: every local entry `filter_mounts` emits carries a non-empty
mount point starting with `/`, whether it was explicit, rewritten from
a relative candidate, or the derived default. -/
theorem C9_local_mount_point_absolute :
    ∀ (mounts : List (List Char)) (e : List Char × List Char × List Char),
      e ∈ (filter_mounts mounts).2 → e.2.1 ≠ [] ∧ e.2.1.head? = some '/' := by
  intro mounts e he
  rw [filter_mounts_eq] at he
  obtain ⟨⟨i, uri⟩, _, hloc⟩ := List.mem_filterMap.mp he
  cases hp : parse_mount_uri uri with
  | none =>
    simp only [localEntry, hp] at hloc
    exact Option.noConfusion hloc
  | some pm =>
    cases hu : pm.user_host with
    | some x =>
      simp only [localEntry, hp, hu] at hloc
      exact Option.noConfusion hloc
    | none =>
      simp only [localEntry, hp, hu, Option.some.injEq] at hloc
      subst hloc
      have habs : ∀ d : List Char, d.head? = some '/' → d ≠ [] ∧ d.head? = some '/' := by
        intro d hd
        refine ⟨?_, hd⟩
        intro hnil
        rw [hnil] at hd
        simp at hd
      cases hmp : pm.mount_point with
      | none =>
        simp only [pyOr, hmp]
        exact habs _ (defaultMountPoint_head i)
      | some m =>
        simp only [pyOr, hmp]
        by_cases hm0 : m = []
        · rw [if_pos hm0]
          exact habs _ (defaultMountPoint_head i)
        · rw [if_neg hm0]
          exact habs _ (parse_mount_point_head uri pm m hp hmp)

/-- Claim C9, witness: the default mount point of a concrete local entry is
a non-empty absolute path. -/
theorem C9_local_mount_point_absolute_witness :
    (("/p".toList, "/home/marimo/notebooks/mounts/local-0".toList, "rsync".toList) :
        List Char × List Char × List Char).2.1 ≠ [] ∧
    (("/p".toList, "/home/marimo/notebooks/mounts/local-0".toList, "rsync".toList) :
        List Char × List Char × List Char).2.1.head? = some '/' :=
  C9_local_mount_point_absolute ["rsync:///p".toList]
    ("/p".toList, "/home/marimo/notebooks/mounts/local-0".toList, "rsync".toList) (by decide)

/-- Claim C10: an `@` anywhere in the remainder forces the remote branch —
`parse("rsync:///path@v1:/mnt")` succeeds with `user_host`
`"/path@v1"` and source `"/mnt"`, `filter_mounts` classifies that
descriptor as remote, and every successfully parsed descriptor
containing `@` gets a `user_host`, so no descriptor with `@` is ever
a local mount. -/
theorem C10_at_forces_remote :
    parse_mount_uri "rsync:///path@v1:/mnt".toList =
      some ⟨"rsync".toList, "/mnt".toList, some "/path@v1".toList, none⟩ ∧
    filter_mounts ["rsync:///path@v1:/mnt".toList] =
      (["rsync:///path@v1:/mnt".toList], []) ∧
    (∀ (uri : List Char) (pm : ParsedMount), parse_mount_uri uri = some pm → '@' ∈ uri →
      pm.user_host.isSome = true) := by
  refine ⟨by decide, by decide, ?_⟩
  intro uri pm hp ha
  obtain ⟨s, r, hm⟩ := parse_some_matchSchemeRe uri pm hp
  have har : '@' ∈ r := at_mem_remainder uri s r hm ha
  exact parse_remote_user_host uri s r pm hm (fun h => h.2 har) hp

/-- Claim C10, witness: the general statement applied at the claim's own
descriptor. -/
theorem C10_at_forces_remote_witness :
    (⟨"rsync".toList, "/mnt".toList, some "/path@v1".toList, none⟩ :
        ParsedMount).user_host.isSome = true :=
  C10_at_forces_remote.2.2 "rsync:///path@v1:/mnt".toList
    ⟨"rsync".toList, "/mnt".toList, some "/path@v1".toList, none⟩ (by decide) (by decide)

end MarimoMounts
